import Mathlib

/-!
Shallow embedding of `src/mass_shift_abundances.py`, the isotopic
mass-shift-distribution tool.  Python `dict`s are modelled as insertion-ordered
association lists with a last-write-wins insert; `float` abundances are
modelled as exact rationals; `itertools.product` is modelled as an explicit
Cartesian-product list in the same (leftmost-slowest) order.
-/

namespace MassShift

/-- Lookup in an insertion-ordered association list (Python `d[k]` / `d.get(k)`).
Keys built by `dinsert` are unique, so first match suffices. -/
def dlookup {β : Type} : List (String × β) → String → Option β
  | [], _ => none
  | (k', v) :: rest, k => if k' = k then some v else dlookup rest k

/-- Python dict assignment `d[k] = v`: update in place if the key is present,
otherwise append at the end (insertion order). -/
def dinsert {β : Type} : List (String × β) → String → β → List (String × β)
  | [], k, v => [(k, v)]
  | (k', v') :: rest, k, v =>
      if k' = k then (k', v) :: rest else (k', v') :: dinsert rest k v

/-- Build a Python dict from a list of key-value pairs, later pairs overwriting
earlier ones (the semantics of a dict comprehension over the list). -/
def pyDict {β : Type} (l : List (String × β)) : List (String × β) :=
  l.foldl (fun d p => dinsert d p.1 p.2) []

/-- The keys of a dict, in insertion order (Python `d.keys()`). -/
def keys {β : Type} (d : List (String × β)) : List String :=
  d.map Prod.fst

/-- One isotope choice for one atom instance: (isotope mass, mass shift,
abundance), as produced inside `genArgs` from one abundance-table entry. -/
abbrev Choice : Type := Int × Int × ℚ

/-- An atom-count mapping, the output type of `_parseFormula`. -/
abbrev Formula : Type := List (String × Nat)

/-- An abundance table: element ↦ list of (isotope, mass shift, abundance),
the items of the inner dict of `_parseAbundanceTable`'s output. -/
abbrev AbdTable : Type := List (String × List Choice)

/-- Embedding of `_getOneIsotopomer`: fold over the atom list, summing
isotope masses and mass shifts and multiplying abundances, starting from
`mass = 0`, `shift = 0`, `abundance = 1.0`. -/
def _getOneIsotopomer (atoms : List Choice) : Int × Int × ℚ :=
  atoms.foldl (fun acc t => (acc.1 + t.1, acc.2.1 + t.2.1, acc.2.2 * t.2.2))
    (0, 0, 1)

theorem getOneIsotopomer_from (atoms : List Choice) (a b : Int) (c : ℚ) :
    atoms.foldl (fun acc t => (acc.1 + t.1, acc.2.1 + t.2.1, acc.2.2 * t.2.2))
      (a, b, c)
      = (a + (atoms.map (fun t => t.1)).sum,
         b + (atoms.map (fun t => t.2.1)).sum,
         c * (atoms.map (fun t => t.2.2)).prod) := by
  induction atoms generalizing a b c with
  | nil => simp
  | cons x xs ih =>
      simp only [List.foldl_cons, List.map_cons, List.sum_cons, List.prod_cons]
      rw [ih]
      ring_nf

/-- C1: `_getOneIsotopomer` returns exactly (sum of isotope masses, sum of
mass shifts, product of abundances); on the empty list it returns (0, 0, 1). -/
theorem getOneIsotopomer_spec (atoms : List Choice) :
    _getOneIsotopomer atoms
      = ((atoms.map (fun t => t.1)).sum,
         (atoms.map (fun t => t.2.1)).sum,
         (atoms.map (fun t => t.2.2)).prod)
    ∧ _getOneIsotopomer ([] : List Choice) = (0, 0, 1) := by
  constructor
  · unfold _getOneIsotopomer
    rw [getOneIsotopomer_from]
    simp
  · rfl

/-- The list of isotope choices genArgs builds for one element:
`[(iso, shift, ab) for iso, (shift, ab) in abdTable[atom].items()]`.
The lookup defaults to `[]`; every claim about the expander assumes the
congruency that `_checkCongruency` enforces, under which the default is
never taken. -/
def choicesOf (abdTable : AbdTable) (atom : String) : List Choice :=
  (dlookup abdTable atom).getD []

/-- `expanded_formula` of genArgs: for each (atom, num) of the formula append
num copies of that atom's choice list. -/
def expandedFormula (formula : Formula) (abdTable : AbdTable) :
    List (List Choice) :=
  formula.foldl
    (fun acc p => acc ++ List.replicate p.2 (choicesOf abdTable p.1)) []

/-- `itertools.product` over a list of lists, leftmost factor slowest; the
empty input yields the single empty tuple. -/
def pyProduct {α : Type} : List (List α) → List (List α)
  | [] => [[]]
  | l :: ls => l.flatMap (fun x => (pyProduct ls).map (fun c => x :: c))

/-- The stream produced by `genArgs`. -/
def genArgs (formula : Formula) (abdTable : AbdTable) : List (List Choice) :=
  pyProduct (expandedFormula formula abdTable)

/-- `pool.map(_getOneIsotopomer, genArgs())`: the pool applies the evaluator
to every generated isotopomer; order of the value list matches the input. -/
def isotopomerResults (formula : Formula) (abdTable : AbdTable) :
    List (Int × Int × ℚ) :=
  (genArgs formula abdTable).map _getOneIsotopomer

/-- Dict lookup keyed by (mass, shift) pairs. -/
def distLookup : List ((Int × Int) × ℚ) → Int × Int → Option ℚ
  | [], _ => none
  | (k', v) :: rest, k => if k' = k then some v else distLookup rest k

/-- The aggregation step for one result:
`out[(m,s)] = out.get((m,s), 0); out[(m,s)] += abundance`. -/
def addToDist : List ((Int × Int) × ℚ) → Int × Int → ℚ → List ((Int × Int) × ℚ)
  | [], k, v => [(k, v)]
  | (k', v') :: rest, k, v =>
      if k' = k then (k', v' + v) :: rest else (k', v') :: addToDist rest k v

/-- Embedding of `_getMassShiftAbundances`: evaluate every isotopomer of the
expanded space and fold the results into a dict keyed by (mass, shift). -/
def _getMassShiftAbundances (formula : Formula) (abdTable : AbdTable) :
    List ((Int × Int) × ℚ) :=
  (isotopomerResults formula abdTable).foldl
    (fun out r => addToDist out (r.1, r.2.1) r.2.2) []

/-- Congruency of a formula with an abundance table: every formula atom has
an abundance-table entry. -/
def Congruent (formula : Formula) (abdTable : AbdTable) : Prop :=
  ∀ a ∈ keys formula, a ∈ keys abdTable

instance (formula : Formula) (abdTable : AbdTable) :
    Decidable (Congruent formula abdTable) :=
  List.decidableBAll _ _

theorem foldl_append_eq_flatMap {α β : Type} (g : α → List β) :
    ∀ (l : List α) (acc : List β),
      l.foldl (fun acc p => acc ++ g p) acc = acc ++ l.flatMap g
  | [], acc => by simp
  | p :: l, acc => by
      simp only [List.foldl_cons, List.flatMap_cons]
      rw [foldl_append_eq_flatMap g l]
      simp

theorem expandedFormula_eq (formula : Formula) (abdTable : AbdTable) :
    expandedFormula formula abdTable
      = formula.flatMap
          (fun p => List.replicate p.2 (choicesOf abdTable p.1)) := by
  unfold expandedFormula
  rw [foldl_append_eq_flatMap]
  simp

theorem length_flatMap_map_cons {α : Type} (l : List α) (M : List (List α)) :
    (l.flatMap (fun x => M.map (fun c => x :: c))).length
      = l.length * M.length := by
  induction l with
  | nil => simp
  | cons x xs ih => simp [ih, Nat.succ_mul, Nat.add_comm]

theorem pyProduct_length {α : Type} (ls : List (List α)) :
    (pyProduct ls).length = (ls.map List.length).prod := by
  induction ls with
  | nil => simp [pyProduct]
  | cons l ls ih =>
      simp only [pyProduct, List.map_cons, List.prod_cons]
      rw [length_flatMap_map_cons, ih]

/-- C3: the expander enumerates exactly Π (ki ^ ci) isotopomers, where ki is
the isotope-count of element i in the abundance table and ci its atom count
in the formula. -/
theorem genArgs_count (formula : Formula) (abdTable : AbdTable)
    (h : Congruent formula abdTable) :
    (genArgs formula abdTable).length
      = (formula.map
          (fun p => (choicesOf abdTable p.1).length ^ p.2)).prod := by
  unfold genArgs
  rw [pyProduct_length, expandedFormula_eq, List.map_flatMap]
  simp only [List.map_replicate]
  rw [List.flatMap_def, List.prod_flatten, List.map_map]
  simp only [Function.comp_def, List.prod_replicate]

/-- Witness for C3 at a concrete congruent formula/table pair. -/
theorem genArgs_count_witness :
    Congruent [("C", 2), ("H", 1)]
        [("C", [(12, 0, (99 : ℚ)/100), (13, 1, (1 : ℚ)/100)]),
         ("H", [(1, 0, (1 : ℚ))])]
      ∧ (genArgs [("C", 2), ("H", 1)]
          [("C", [(12, 0, (99 : ℚ)/100), (13, 1, (1 : ℚ)/100)]),
           ("H", [(1, 0, (1 : ℚ))])]).length
        = ([("C", 2), ("H", 1)].map
            (fun p => (choicesOf
                [("C", [(12, 0, (99 : ℚ)/100), (13, 1, (1 : ℚ)/100)]),
                 ("H", [(1, 0, (1 : ℚ))])] p.1).length ^ p.2)).prod :=
  ⟨by decide, genArgs_count _ _ (by decide)⟩

/-- C6: an empty formula yields exactly one isotopomer, the empty one, and
the resulting distribution has the single key (0, 0) mapped to 1. -/
theorem emptyFormula_spec (abdTable : AbdTable) :
    genArgs ([] : Formula) abdTable = [[]]
    ∧ _getMassShiftAbundances ([] : Formula) abdTable
        = [((0, 0), (1 : ℚ))] :=
  ⟨rfl, rfl⟩

/-- The formula {C:1, H:4} of the spec's worked example. -/
def exampleFormula : Formula := [("C", 1), ("H", 4)]

/-- The abundance table of the spec's worked example: C has isotopes
12 (shift 0, abundance 0.99) and 13 (shift 1, abundance 0.01); H has the
single isotope 1 (shift 0, abundance 1.0). -/
def exampleTable : AbdTable :=
  [("C", [(12, 0, (99 : ℚ)/100), (13, 1, (1 : ℚ)/100)]),
   ("H", [(1, 0, (1 : ℚ))])]

/-- C8: on the worked example the distribution is exactly
{(16, 0) ↦ 0.99, (17, 1) ↦ 0.01} and its values sum to 1. -/
theorem worked_example :
    _getMassShiftAbundances exampleFormula exampleTable
      = [((16, 0), (99 : ℚ)/100), ((17, 1), (1 : ℚ)/100)]
    ∧ ((_getMassShiftAbundances exampleFormula exampleTable).map
        Prod.snd).sum = 1 := by
  constructor
  · simp [_getMassShiftAbundances, isotopomerResults, genArgs,
      expandedFormula, choicesOf, dlookup, exampleFormula, exampleTable,
      pyProduct, _getOneIsotopomer, addToDist]
  · simp [_getMassShiftAbundances, isotopomerResults, genArgs,
      expandedFormula, choicesOf, dlookup, exampleFormula, exampleTable,
      pyProduct, _getOneIsotopomer, addToDist]
    norm_num

theorem distLookup_addToDist (d : List ((Int × Int) × ℚ)) (k : Int × Int)
    (v : ℚ) (j : Int × Int) :
    distLookup (addToDist d k v) j
      = if j = k then some ((distLookup d k).getD 0 + v)
        else distLookup d j := by
  induction d with
  | nil =>
      by_cases hj : j = k
      · subst hj; simp [addToDist, distLookup]
      · simp [addToDist, distLookup, hj, Ne.symm hj]
  | cons q rest ih =>
      obtain ⟨k', v'⟩ := q
      by_cases hk : k' = k
      · subst hk
        by_cases hj : j = k'
        · subst hj; simp [addToDist, distLookup]
        · simp [addToDist, distLookup, hj, Ne.symm hj]
      · by_cases hj : j = k
        · subst hj
          have hk' : ¬ k' = j := hk
          simp [addToDist, distLookup, hk, hk', ih]
        · by_cases hj' : k' = j
          · subst hj'
            simp [addToDist, distLookup, hk, hj]
          · simp [addToDist, distLookup, hk, hj, hj', ih]

/-- The aggregation fold of `_getMassShiftAbundances`, starting from an
arbitrary dict (the source starts from the empty dict). -/
def resultsFold (l : List (Int × Int × ℚ)) (d : List ((Int × Int) × ℚ)) :
    List ((Int × Int) × ℚ) :=
  l.foldl (fun out r => addToDist out (r.1, r.2.1) r.2.2) d

theorem getMassShiftAbundances_eq_resultsFold (formula : Formula)
    (abdTable : AbdTable) :
    _getMassShiftAbundances formula abdTable
      = resultsFold (isotopomerResults formula abdTable) [] := rfl

theorem resultsFold_lookup_eq_none (l : List (Int × Int × ℚ)) :
    ∀ (d : List ((Int × Int) × ℚ)) (k : Int × Int),
      (distLookup (resultsFold l d) k = none
        ↔ distLookup d k = none
          ∧ l.filter (fun r => (r.1, r.2.1) = k) = []) := by
  induction l with
  | nil => intro d k; simp [resultsFold]
  | cons r rest ih =>
      intro d k
      have hstep : resultsFold (r :: rest) d
          = resultsFold rest (addToDist d (r.1, r.2.1) r.2.2) := rfl
      rw [hstep, ih, distLookup_addToDist, List.filter_cons]
      by_cases hk : (r.1, r.2.1) = k
      · subst hk
        simp
      · have hk' : ¬ k = (r.1, r.2.1) := fun h => hk h.symm
        simp [hk, hk']

theorem resultsFold_lookup_getD (l : List (Int × Int × ℚ)) :
    ∀ (d : List ((Int × Int) × ℚ)) (k : Int × Int),
      (distLookup (resultsFold l d) k).getD 0
        = (distLookup d k).getD 0
          + ((l.filter (fun r => (r.1, r.2.1) = k)).map
              (fun r => r.2.2)).sum := by
  induction l with
  | nil => intro d k; simp [resultsFold]
  | cons r rest ih =>
      intro d k
      have hstep : resultsFold (r :: rest) d
          = resultsFold rest (addToDist d (r.1, r.2.1) r.2.2) := rfl
      rw [hstep, ih, distLookup_addToDist, List.filter_cons]
      by_cases hk : (r.1, r.2.1) = k
      · subst hk
        simp [add_assoc]
      · have hk' : ¬ k = (r.1, r.2.1) := fun h => hk h.symm
        simp [hk, hk']

/-- C2: the distribution maps each (mass, shift) key to the sum of the
abundances of exactly those evaluated isotopomers carrying that key, and a
key with no contributing isotopomer is absent. -/
theorem getMassShiftAbundances_lookup (formula : Formula)
    (abdTable : AbdTable) (h : Congruent formula abdTable)
    (k : Int × Int) :
    distLookup (_getMassShiftAbundances formula abdTable) k
      = (if ((isotopomerResults formula abdTable).filter
              (fun r => (r.1, r.2.1) = k)) = []
         then none
         else some ((((isotopomerResults formula abdTable).filter
              (fun r => (r.1, r.2.1) = k)).map (fun r => r.2.2)).sum)) := by
  rw [getMassShiftAbundances_eq_resultsFold]
  by_cases hf : ((isotopomerResults formula abdTable).filter
      (fun r => (r.1, r.2.1) = k)) = []
  · rw [if_pos hf]
    rw [resultsFold_lookup_eq_none]
    exact ⟨rfl, hf⟩
  · rw [if_neg hf]
    have hne : ¬ distLookup
        (resultsFold (isotopomerResults formula abdTable) []) k = none := by
      rw [resultsFold_lookup_eq_none]
      intro hc
      exact hf hc.2
    obtain ⟨v, hv⟩ := Option.ne_none_iff_exists'.mp hne
    have hg := resultsFold_lookup_getD (isotopomerResults formula abdTable)
      [] k
    rw [hv] at hg
    simp [distLookup] at hg
    rw [hv, hg]

/-- Witness for C2 at a concrete congruent input. -/
theorem getMassShiftAbundances_lookup_witness :
    Congruent [("H", 1)] [("H", [(1, 0, (1 : ℚ))])]
    ∧ distLookup
        (_getMassShiftAbundances [("H", 1)] [("H", [(1, 0, (1 : ℚ))])])
        (1, 0)
      = (if ((isotopomerResults [("H", 1)]
              [("H", [(1, 0, (1 : ℚ))])]).filter
              (fun r => (r.1, r.2.1) = (1, 0))) = []
         then none
         else some ((((isotopomerResults [("H", 1)]
              [("H", [(1, 0, (1 : ℚ))])]).filter
              (fun r => (r.1, r.2.1) = (1, 0))).map
                (fun r => r.2.2)).sum)) :=
  ⟨by decide, getMassShiftAbundances_lookup _ _ (by decide) (1, 0)⟩

theorem sumValues_addToDist (d : List ((Int × Int) × ℚ)) (k : Int × Int)
    (v : ℚ) :
    ((addToDist d k v).map Prod.snd).sum = (d.map Prod.snd).sum + v := by
  induction d with
  | nil => simp [addToDist]
  | cons q rest ih =>
      obtain ⟨k', v'⟩ := q
      by_cases hk : k' = k
      · simp [addToDist, hk, add_assoc, add_comm]
      · simp [addToDist, hk, ih, add_assoc]

theorem sumValues_resultsFold (l : List (Int × Int × ℚ)) :
    ∀ d : List ((Int × Int) × ℚ),
      ((resultsFold l d).map Prod.snd).sum
        = (d.map Prod.snd).sum + (l.map (fun r => r.2.2)).sum := by
  induction l with
  | nil => intro d; simp [resultsFold]
  | cons r rest ih =>
      intro d
      have hstep : resultsFold (r :: rest) d
          = resultsFold rest (addToDist d (r.1, r.2.1) r.2.2) := rfl
      rw [hstep, ih, sumValues_addToDist]
      simp [add_assoc]

theorem sum_pyProduct_prod {α : Type} (f : α → ℚ) (ls : List (List α)) :
    ((pyProduct ls).map (fun c => (c.map f).prod)).sum
      = (ls.map (fun l => (l.map f).sum)).prod := by
  induction ls with
  | nil => simp [pyProduct]
  | cons l ls ih =>
      simp only [pyProduct, List.map_cons, List.prod_cons]
      rw [List.map_flatMap, List.flatMap_def, List.sum_flatten, List.map_map]
      have hinner : ∀ x : α,
          ((List.map (fun c => ((x :: c).map f).prod) (pyProduct ls))).sum
            = f x * ((pyProduct ls).map (fun c => (c.map f).prod)).sum := by
        intro x
        simp only [List.map_cons, List.prod_cons]
        rw [← List.sum_map_mul_left]
      have hcomp : (List.map
            ((fun l => l.sum) ∘ fun x =>
              List.map (fun c => (c.map f).prod)
                (List.map (fun c => x :: c) (pyProduct ls))) l)
          = List.map (fun x =>
              f x * ((pyProduct ls).map (fun c => (c.map f).prod)).sum) l := by
        apply List.map_congr_left
        intro x _
        simp only [Function.comp_apply, List.map_map]
        have := hinner x
        rw [← this]
        simp [Function.comp_def]
      rw [hcomp, List.sum_map_mul_right, ih]

theorem expanded_sum_prod (formula : Formula) (abdTable : AbdTable) :
    ((expandedFormula formula abdTable).map
        (fun l => (l.map (fun t => t.2.2)).sum)).prod
      = (formula.map
          (fun p => (((choicesOf abdTable p.1).map
              (fun t => t.2.2)).sum) ^ p.2)).prod := by
  rw [expandedFormula_eq, List.map_flatMap]
  simp only [List.map_replicate]
  rw [List.flatMap_def, List.prod_flatten, List.map_map]
  simp only [Function.comp_def, List.prod_replicate]

theorem getOneIsotopomer_abd (atoms : List Choice) :
    (_getOneIsotopomer atoms).2.2 = (atoms.map (fun t => t.2.2)).prod := by
  unfold _getOneIsotopomer
  rw [getOneIsotopomer_from]
  simp

/-- C5: the distribution's values sum to the product, over the formula's
elements, of (that element's abundance sum) ^ (its atom count); in
particular, per-element abundance sums of 1 give a total of exactly 1
(abundances are modelled as exact rationals). -/
theorem getMassShiftAbundances_total (formula : Formula)
    (abdTable : AbdTable) (h : Congruent formula abdTable) :
    ((_getMassShiftAbundances formula abdTable).map Prod.snd).sum
      = (formula.map
          (fun p => (((choicesOf abdTable p.1).map
              (fun t => t.2.2)).sum) ^ p.2)).prod
    ∧ ((∀ p ∈ formula,
          ((choicesOf abdTable p.1).map (fun t => t.2.2)).sum = 1) →
        ((_getMassShiftAbundances formula abdTable).map Prod.snd).sum
          = 1) := by
  have hmain :
      ((_getMassShiftAbundances formula abdTable).map Prod.snd).sum
        = (formula.map
            (fun p => (((choicesOf abdTable p.1).map
                (fun t => t.2.2)).sum) ^ p.2)).prod := by
    rw [getMassShiftAbundances_eq_resultsFold, sumValues_resultsFold]
    simp only [List.map_nil, List.sum_nil, zero_add]
    unfold isotopomerResults genArgs
    rw [List.map_map]
    have habd : List.map ((fun r => r.2.2) ∘ _getOneIsotopomer)
          (pyProduct (expandedFormula formula abdTable))
        = List.map (fun c => (c.map (fun t => t.2.2)).prod)
          (pyProduct (expandedFormula formula abdTable)) := by
      apply List.map_congr_left
      intro c _
      simp only [Function.comp_apply]
      exact getOneIsotopomer_abd c
    rw [habd, sum_pyProduct_prod, expanded_sum_prod]
  refine ⟨hmain, fun hone => ?_⟩
  rw [hmain]
  apply List.prod_eq_one
  intro x hx
  obtain ⟨p, hp, rfl⟩ := List.mem_map.mp hx
  rw [hone p hp, one_pow]

/-- Witness for C5 at a concrete congruent input with normalized
abundances. -/
theorem getMassShiftAbundances_total_witness :
    Congruent exampleFormula exampleTable
    ∧ ((_getMassShiftAbundances exampleFormula exampleTable).map
          Prod.snd).sum
        = (exampleFormula.map
            (fun p => (((choicesOf exampleTable p.1).map
                (fun t => t.2.2)).sum) ^ p.2)).prod :=
  ⟨by decide, (getMassShiftAbundances_total _ _ (by decide)).1⟩

/-- One pass of `re.findall(r'([A-Z][a-z]{0,1})(\d*)', formula)`: scan left
to right, start a token at each uppercase letter, greedily attach one
optional lowercase letter and then a maximal digit run, and skip every other
character.  `cur` is the token currently open for digit extension. -/
def tokGo : List Char → Option (List Char × List Char) →
    List (List Char × List Char)
  | [], cur => cur.toList
  | c :: rest, cur =>
      if c.isDigit then
        match cur with
        | some t => tokGo rest (some (t.1, t.2 ++ [c]))
        | none => tokGo rest none
      else if c.isUpper then
        match rest with
        | [] => cur.toList ++ [([c], [])]
        | c2 :: rest2 =>
            if c2.isLower then cur.toList ++ tokGo rest2 (some ([c, c2], []))
            else cur.toList ++ tokGo (c2 :: rest2) (some ([c], []))
      else cur.toList ++ tokGo rest none

/-- The (element, digit-run) pairs of `PATTERN.findall(formula)`, in match
order. -/
def tokenize (l : List Char) : List (List Char × List Char) :=
  tokGo l none

/-- Python `int` on a nonempty decimal digit string. -/
def digitsToNat (ds : List Char) : Nat :=
  ds.foldl (fun n c => n * 10 + (c.toNat - 48)) 0

/-- The count attached to one findall match:
`int(num) if num else 1`. -/
def tokenCount (t : List Char × List Char) : Nat :=
  if t.2 = [] then 1 else digitsToNat t.2

/-- Embedding of `_parseFormula`: the dict comprehension
`{atom: int(num) if num else 1 for atom, num in PATTERN.findall(formula)}`. -/
def _parseFormula (s : String) : Formula :=
  pyDict ((tokenize s.data).map (fun t => (String.mk t.1, tokenCount t)))

theorem dlookup_dinsert {β : Type} (d : List (String × β)) (k : String)
    (v : β) (j : String) :
    dlookup (dinsert d k v) j = if k = j then some v else dlookup d j := by
  induction d with
  | nil => simp [dinsert, dlookup]
  | cons q rest ih =>
      obtain ⟨k', v'⟩ := q
      by_cases hk : k' = k
      · subst hk
        by_cases hj : k' = j <;> simp [dinsert, dlookup, hj]
      · by_cases hj : k' = j
        · subst hj
          have hkj : ¬ k = k' := fun h => hk h.symm
          simp [dinsert, dlookup, hk, hkj]
        · simp [dinsert, dlookup, hk, hj, ih]

theorem keys_dinsert {β : Type} (d : List (String × β)) (k : String)
    (v : β) :
    keys (dinsert d k v)
      = if k ∈ keys d then keys d else keys d ++ [k] := by
  induction d with
  | nil => simp [dinsert, keys]
  | cons q rest ih =>
      obtain ⟨k', v'⟩ := q
      by_cases hk : k' = k
      · subst hk
        simp [dinsert, keys]
      · have hk' : ¬ k = k' := fun h => hk h.symm
        simp only [dinsert, if_neg hk, keys, List.map_cons]
        have ih' : List.map Prod.fst (dinsert rest k v)
            = if k ∈ List.map Prod.fst rest then List.map Prod.fst rest
              else List.map Prod.fst rest ++ [k] := by
          simpa [keys] using ih
        by_cases hmem : k ∈ List.map Prod.fst rest
        · rw [if_pos (by simp [hmem]), ih', if_pos hmem]
        · rw [if_neg (by simp [hmem, hk']), ih', if_neg hmem]
          simp

theorem mem_dinsert {β : Type} (d : List (String × β)) (k : String) (v : β)
    (p : String × β) (hp : p ∈ dinsert d k v) :
    p ∈ d ∨ (p.1 = k ∧ p.2 = v) := by
  induction d with
  | nil =>
      simp [dinsert] at hp
      right
      simp [hp]
  | cons q rest ih =>
      obtain ⟨k', v'⟩ := q
      by_cases hk : k' = k
      · subst hk
        simp [dinsert] at hp
        rcases hp with hp | hp
        · right; simp [hp]
        · left; exact List.mem_cons_of_mem _ hp
      · simp [dinsert, hk] at hp
        rcases hp with hp | hp
        · left; simp [hp]
        · rcases ih hp with hin | hkv
          · left; exact List.mem_cons_of_mem _ hin
          · right; exact hkv

theorem pyDict_concat {β : Type} (l : List (String × β)) (p : String × β) :
    pyDict (l ++ [p]) = dinsert (pyDict l) p.1 p.2 := by
  simp [pyDict, List.foldl_append]

theorem dlookup_pyDict {β : Type} (l : List (String × β)) (j : String) :
    dlookup (pyDict l) j
      = Option.map Prod.snd ((l.filter (fun p => p.1 = j)).getLast?) := by
  induction l using List.reverseRecOn with
  | nil => simp [pyDict, dlookup]
  | append_singleton l p ih =>
      rw [pyDict_concat, dlookup_dinsert, List.filter_append]
      by_cases hp : p.1 = j
      · simp [hp, List.getLast?_concat]
      · simp [hp, ih]

theorem nodup_keys_pyDict {β : Type} (l : List (String × β)) :
    (keys (pyDict l)).Nodup := by
  induction l using List.reverseRecOn with
  | nil => simp [pyDict, keys]
  | append_singleton l p ih =>
      rw [pyDict_concat, keys_dinsert]
      by_cases hmem : p.1 ∈ keys (pyDict l)
      · simpa [hmem] using ih
      · rw [if_neg hmem, List.nodup_append]
        refine ⟨ih, List.nodup_singleton _, ?_⟩
        intro a ha hb
        rw [List.mem_singleton] at hb
        subst hb
        exact hmem ha

theorem mem_keys_pyDict {β : Type} (l : List (String × β)) (j : String) :
    j ∈ keys (pyDict l) ↔ j ∈ l.map Prod.fst := by
  induction l using List.reverseRecOn with
  | nil => simp [pyDict, keys]
  | append_singleton l p ih =>
      rw [pyDict_concat, keys_dinsert]
      simp only [List.map_append, List.map_cons, List.map_nil]
      by_cases hmem : p.1 ∈ keys (pyDict l)
      · rw [if_pos hmem]
        constructor
        · intro h
          exact List.mem_append_left _ (ih.mp h)
        · intro h
          rcases List.mem_append.mp h with h | h
          · exact ih.mpr h
          · simp at h
            subst h
            exact hmem
      · rw [if_neg hmem]
        simp only [List.mem_append, ih]

theorem mem_pyDict {β : Type} (l : List (String × β)) (p : String × β)
    (hp : p ∈ pyDict l) : ∃ q ∈ l, p.1 = q.1 ∧ p.2 = q.2 := by
  induction l using List.reverseRecOn with
  | nil => simp [pyDict] at hp
  | append_singleton l q ih =>
      rw [pyDict_concat] at hp
      rcases mem_dinsert _ _ _ _ hp with hin | hkv
      · obtain ⟨r, hr, he⟩ := ih hin
        exact ⟨r, List.mem_append_left _ hr, he⟩
      · exact ⟨q, List.mem_append_right _ (List.mem_singleton_self _), hkv⟩

/-- Counterexample to C7 as stated: the formula string "C0" parses to a
mapping in which element "C" has count 0, not a positive count. -/
theorem parseFormula_zero_count_cex :
    _parseFormula "C0" = [("C", 0)]
    ∧ ¬ (∀ p ∈ _parseFormula "C0", 1 ≤ p.2) := by
  constructor
  · decide
  · decide

/-- C7 (amended): if no element symbol in the string is directly followed by
a digit run of numeric value 0, then every count in the parsed mapping is
at least 1; a match with an empty digit run is assigned count 1. -/
theorem parseFormula_counts_positive (s : String)
    (h : ∀ t ∈ tokenize s.data, t.2 ≠ [] → 1 ≤ digitsToNat t.2) :
    (∀ p ∈ _parseFormula s, 1 ≤ p.2)
    ∧ (∀ t ∈ tokenize s.data, t.2 = [] → tokenCount t = 1) := by
  constructor
  · intro p hp
    obtain ⟨q, hq, _, hval⟩ := mem_pyDict _ _ hp
    obtain ⟨t, ht, rfl⟩ := List.mem_map.mp hq
    rw [hval]
    by_cases hd : t.2 = []
    · simp [tokenCount, hd]
    · simpa [tokenCount, hd] using h t ht hd
  · intro t _ hd
    simp [tokenCount, hd]

/-- Witness for C7's amended statement on the formula string "CH4". -/
theorem parseFormula_counts_positive_witness :
    (∀ t ∈ tokenize "CH4".data, t.2 ≠ [] → 1 ≤ digitsToNat t.2)
    ∧ (∀ p ∈ _parseFormula "CH4", 1 ≤ p.2) :=
  ⟨by decide, (parseFormula_counts_positive "CH4" (by decide)).1⟩

/-- C10: when an element symbol is matched more than once in the formula
string, the parsed mapping contains it exactly once and its count is the
count of the last match; earlier counts are discarded, not accumulated. -/
theorem parseFormula_last_wins (s : String) (e : String)
    (h : 2 ≤ ((tokenize s.data).filter
        (fun t => String.mk t.1 = e)).length) :
    ((_parseFormula s).map Prod.fst).count e = 1
    ∧ dlookup (_parseFormula s) e
        = Option.map (fun t => tokenCount t)
            (((tokenize s.data).filter
                (fun t => String.mk t.1 = e)).getLast?) := by
  have hfilter :
      (((tokenize s.data).map
          (fun t => (String.mk t.1, tokenCount t))).filter
        (fun p => p.1 = e))
      = ((tokenize s.data).filter (fun t => String.mk t.1 = e)).map
          (fun t => (String.mk t.1, tokenCount t)) := by
    rw [List.filter_map]
    congr 1
  constructor
  · have hne : ((tokenize s.data).filter
        (fun t => String.mk t.1 = e)) ≠ [] := by
      intro hc
      rw [hc] at h
      simp at h
    obtain ⟨t, ht⟩ := List.exists_mem_of_ne_nil _ hne
    have hmem := List.mem_filter.mp ht
    have hE : String.mk t.1 = e := by simpa using hmem.2
    have hkey : e ∈ ((tokenize s.data).map
        (fun t => (String.mk t.1, tokenCount t))).map Prod.fst := by
      rw [List.map_map]
      exact List.mem_map.mpr ⟨t, hmem.1, by simpa using hE⟩
    have hmemkeys : e ∈ keys (_parseFormula s) := by
      unfold _parseFormula
      rw [mem_keys_pyDict]
      exact hkey
    exact List.count_eq_one_of_mem (nodup_keys_pyDict _) hmemkeys
  · unfold _parseFormula
    rw [dlookup_pyDict, hfilter, List.getLast?_map, Option.map_map]
    rfl

/-- Witness for C10 on the formula string "CHC3", in which "C" occurs
twice. -/
theorem parseFormula_last_wins_witness :
    2 ≤ ((tokenize "CHC3".data).filter
        (fun t => String.mk t.1 = "C")).length
    ∧ (((_parseFormula "CHC3").map Prod.fst).count "C" = 1
       ∧ dlookup (_parseFormula "CHC3") "C"
           = Option.map (fun t => tokenCount t)
               (((tokenize "CHC3".data).filter
                   (fun t => String.mk t.1 = "C")).getLast?)) :=
  ⟨by decide, parseFormula_last_wins "CHC3" "C" (by decide)⟩

/-- The atoms of the formula that are absent from the abundance table
(Python `set(formula.keys()).difference(set(abundances.keys()))`). -/
def missingAtoms (formula : Formula) (abdTable : AbdTable) : List String :=
  (keys formula).filter (fun x => ¬ x ∈ keys abdTable)

/-- Embedding of `_checkCongruency`: raise (return an error carrying the
missing atoms) when the missing set is nonempty, otherwise return with no
effect. -/
def _checkCongruency (formula : Formula) (abdTable : AbdTable) :
    Except (List String) Unit :=
  if missingAtoms formula abdTable = [] then Except.ok ()
  else Except.error (missingAtoms formula abdTable)

/-- The `_main` sequencing around the core: congruency is checked first and
the distribution is computed only when the check returns normally. -/
def computeDistribution (formula : Formula) (abdTable : AbdTable) :
    Except (List String) (List ((Int × Int) × ℚ)) :=
  match _checkCongruency formula abdTable with
  | Except.error e => Except.error e
  | Except.ok _ => Except.ok (_getMassShiftAbundances formula abdTable)

theorem mem_missingAtoms (formula : Formula) (abdTable : AbdTable)
    (x : String) :
    x ∈ missingAtoms formula abdTable
      ↔ (x ∈ keys formula ∧ ¬ x ∈ keys abdTable) := by
  unfold missingAtoms
  rw [List.mem_filter]
  simp

theorem missingAtoms_nil_iff (formula : Formula) (abdTable : AbdTable) :
    missingAtoms formula abdTable = [] ↔ Congruent formula abdTable := by
  unfold missingAtoms Congruent
  rw [List.filter_eq_nil_iff]
  simp

/-- C4: the congruency check errors iff some formula atom is absent from the
abundance table, the error names exactly the missing atoms, a congruent
input returns normally, and on failure the pipeline yields the error and no
distribution. -/
theorem checkCongruency_spec (formula : Formula) (abdTable : AbdTable) :
    ((∃ e, _checkCongruency formula abdTable = Except.error e)
        ↔ ¬ Congruent formula abdTable)
    ∧ (_checkCongruency formula abdTable = Except.ok ()
        ↔ Congruent formula abdTable)
    ∧ (∀ e, _checkCongruency formula abdTable = Except.error e →
        (∀ x, x ∈ e ↔ (x ∈ keys formula ∧ ¬ x ∈ keys abdTable))
        ∧ computeDistribution formula abdTable = Except.error e)
    ∧ (Congruent formula abdTable →
        computeDistribution formula abdTable
          = Except.ok (_getMassShiftAbundances formula abdTable)) := by
  by_cases hc : Congruent formula abdTable
  · have hnil : missingAtoms formula abdTable = [] :=
      (missingAtoms_nil_iff _ _).mpr hc
    have hok : _checkCongruency formula abdTable = Except.ok () := by
      unfold _checkCongruency
      rw [if_pos hnil]
    refine ⟨?_, ?_, ?_, ?_⟩
    · constructor
      · rintro ⟨e, he⟩
        rw [hok] at he
        exact absurd he (by simp)
      · intro hn
        exact absurd hc hn
    · simp [hok, hc]
    · intro e he
      rw [hok] at he
      exact absurd he (by simp)
    · intro _
      unfold computeDistribution
      rw [hok]
  · have hnnil : ¬ missingAtoms formula abdTable = [] := fun h =>
      hc ((missingAtoms_nil_iff _ _).mp h)
    have herr : _checkCongruency formula abdTable
        = Except.error (missingAtoms formula abdTable) := by
      unfold _checkCongruency
      rw [if_neg hnnil]
    refine ⟨?_, ?_, ?_, ?_⟩
    · exact ⟨fun _ => hc, fun _ => ⟨_, herr⟩⟩
    · rw [herr]
      simp [hc]
    · intro e he
      rw [herr] at he
      have he' : missingAtoms formula abdTable = e := by
        injection he
      constructor
      · intro x
        rw [← he', mem_missingAtoms]
      · unfold computeDistribution
        rw [herr, he']
    · intro h
      exact absurd h hc

/-- Witness for C4: a failing input naming its missing atom, and a
congruent input passing through to the distribution. -/
theorem checkCongruency_spec_witness :
    _checkCongruency [("X", 1)] [] = Except.error ["X"]
    ∧ ("X" ∈ ["X"]
        ↔ ("X" ∈ keys [("X", 1)] ∧ ¬ "X" ∈ keys ([] : AbdTable)))
    ∧ computeDistribution [("X", 1)] [] = Except.error ["X"]
    ∧ computeDistribution [("X", 1)] [("X", [(5, 0, (1 : ℚ))])]
        = Except.ok
            (_getMassShiftAbundances [("X", 1)]
              [("X", [(5, 0, (1 : ℚ))])]) :=
  ⟨rfl,
   ((checkCongruency_spec [("X", 1)] []).2.2.1 ["X"] rfl).1 "X",
   ((checkCongruency_spec [("X", 1)] []).2.2.1 ["X"] rfl).2,
   (checkCongruency_spec [("X", 1)]
     [("X", [(5, 0, (1 : ℚ))])]).2.2.2 (by decide)⟩

end MassShift
